import Mathlib

/-!
Shallow embedding of `src/sympc/utils/mpc_utils.py` (SyMPC MPC utilities).

Torch integer tensors are modelled as flat lists of `Int` whose elements lie
in the signed range of the fixed-width dtype; fixed-width wraparound is made
explicit with `wrapSigned`.  Torch's truncating integer division (`/` on
integer tensors) is `Int.tdiv` and `torch.fmod` is `Int.tmod` (both round
toward zero, remainder takes the sign of the dividend).  Dictionary lookups
that raise `ValueError` in Python are embedded as `Except String`.
-/

namespace MpcUtils

/-- The torch dtypes relevant to `mpc_utils.py`: the five dtypes appearing in
`RING_SIZE_TO_TYPE`, plus `uint8` as a representative dtype that has no
associated ring size (so the error branch of `get_ring_size_from_type` is
reachable). -/
inductive TorchDtype where
  | bool
  | uint8
  | int8
  | int16
  | int32
  | int64
deriving DecidableEq, Repr

/-- `RING_SIZE_TO_TYPE` dictionary: ring size to dtype; `none` models a missing
key. -/
def RING_SIZE_TO_TYPE (ring_size : Nat) : Option TorchDtype :=
  if ring_size = 2 ^ 1 then some .bool
  else if ring_size = 2 ^ 8 then some .int8
  else if ring_size = 2 ^ 16 then some .int16
  else if ring_size = 2 ^ 32 then some .int32
  else if ring_size = 2 ^ 64 then some .int64
  else none

/-- `TYPE_TO_RING_SIZE` dictionary: dtype to ring size; `none` models a missing
key. -/
def TYPE_TO_RING_SIZE : TorchDtype → Option Nat
  | .bool => some (2 ^ 1)
  | .int8 => some (2 ^ 8)
  | .int16 => some (2 ^ 16)
  | .int32 => some (2 ^ 32)
  | .int64 => some (2 ^ 64)
  | .uint8 => none

/-- The supported ring sizes, i.e. the keys of `RING_SIZE_TO_TYPE`. -/
def SUPPORTED_RING_SIZES : List Nat := [2 ^ 1, 2 ^ 8, 2 ^ 16, 2 ^ 32, 2 ^ 64]

/-- The supported dtypes, i.e. the keys of `TYPE_TO_RING_SIZE`. -/
def SUPPORTED_DTYPES : List TorchDtype := [.bool, .int8, .int16, .int32, .int64]

/-- `get_type_from_ring`: raises `ValueError` when the ring size is not a key
of `RING_SIZE_TO_TYPE`, else returns the dictionary entry. -/
def get_type_from_ring (ring_size : Nat) : Except String TorchDtype :=
  match RING_SIZE_TO_TYPE ring_size with
  | none => .error "Ring size should be in RING_SIZE_TO_TYPE.keys()"
  | some t => .ok t

/-- `get_ring_size_from_type`: raises `ValueError` when the dtype is not a key
of `TYPE_TO_RING_SIZE`, else returns the dictionary entry. -/
def get_ring_size_from_type (dtype : TorchDtype) : Except String Nat :=
  match TYPE_TO_RING_SIZE dtype with
  | none => .error "Torch type should be in TYPE_TO_RING_SIZE.keys()"
  | some r => .ok r

/-- Python's `int.bit_length` on naturals, via a fuel argument so that the
definition is structural (the fuel `n` always suffices since `n / 2 < n` for
`n > 0`). `bit_length 0 = 0` and `bit_length n = floor(log2 n) + 1` for
`n > 0`. -/
def bitLenAux : Nat → Nat → Nat
  | 0, _ => 0
  | fuel + 1, n => if n = 0 then 0 else bitLenAux fuel (n / 2) + 1

/-- Python's `int.bit_length`. -/
def bit_length (n : Nat) : Nat := bitLenAux n n

/-- `get_nr_bits`: `(ring_size - 1).bit_length()`. -/
def get_nr_bits (ring_size : Nat) : Nat := bit_length (ring_size - 1)

/-- Interpret an integer as a `w`-bit two's-complement value: the unique
representative of `x` modulo `2 ^ w` lying in `[-2 ^ (w - 1), 2 ^ (w - 1))`.
This is the wraparound-on-overflow semantics of torch's signed fixed-width
integer tensors. -/
def wrapSigned (w : Nat) (x : Int) : Int :=
  (x + 2 ^ (w - 1)) % 2 ^ w - 2 ^ (w - 1)

/-- `count_wraps`: per-element net number of modular wraparounds produced by
reconstructing a secret from its additive shares, each share a flat list of
`w`-bit signed values.  Mirrors the source: `res = zeros(shares[0].size())`;
`prev = shares[0]`; for each later share `cur`: `next = cur + prev` in the
fixed-width arithmetic, `res -= (prev < 0) & (cur < 0) & (next > 0)`,
`res += (prev > 0) & (cur > 0) & (next < 0)`, `prev = next`.  Indexing
`shares[0]` fails on an empty list, modelled by `none`.

One iteration of the loop on the state `(res, prev_share)`:
`next = cur + prev` in the fixed-width arithmetic,
`res -= (prev < 0) & (cur < 0) & (next > 0)`,
`res += (prev > 0) & (cur > 0) & (next < 0)`, `prev = next`. -/
def listStep (w : Nat) (st : List Int × List Int) (cur : List Int) :
    List Int × List Int :=
  let prev := st.2
  let next := List.zipWith (fun c p => wrapSigned w (c + p)) cur prev
  let under := List.zipWith
    (fun pc n => if pc.1 < 0 ∧ pc.2 < 0 ∧ 0 < n then (1 : Int) else 0)
    (prev.zip cur) next
  let over := List.zipWith
    (fun pc n => if 0 < pc.1 ∧ 0 < pc.2 ∧ n < 0 then (1 : Int) else 0)
    (prev.zip cur) next
  (List.zipWith (· + ·) (List.zipWith (· - ·) st.1 under) over, next)

def count_wraps (w : Nat) (share_list : List (List Int)) : Option (List Int) :=
  match share_list with
  | [] => none
  | first :: rest =>
    some (rest.foldl (listStep w) (List.replicate first.length (0 : Int), first)).1

/-- Per-element specification of wrap counting, following the claim's words:
a strict left-to-right fold starting from `acc = x0`; for each subsequent
value `s`, `next = acc + s` with wraparound, decrement the count when
`acc < 0 ∧ s < 0 ∧ next > 0`, increment it when `acc > 0 ∧ s > 0 ∧ next < 0`,
then `acc = next`.

`elemStep` is one step of that fold on the state `(acc, count)`. -/
def elemStep (w : Nat) (st : Int × Int) (s : Int) : Int × Int :=
  let next := wrapSigned w (st.1 + s)
  (next,
    st.2 + (if st.1 < 0 ∧ s < 0 ∧ 0 < next then -1 else 0)
         + (if 0 < st.1 ∧ 0 < s ∧ next < 0 then 1 else 0))

def wrapCountElem (w : Nat) (x0 : Int) (xs : List Int) : Int :=
  (xs.foldl (elemStep w) (x0, 0)).2

/-- Element-wise form of the claimed specification of `count_wraps` on a
non-empty share list. -/
def count_wraps_spec (w : Nat) (first : List Int) (rest : List (List Int)) :
    List Int :=
  (List.range first.length).map
    (fun j => wrapCountElem w (first.getD j 0) (rest.map (fun s => s.getD j 0)))

/-- Casting an integer value to a torch dtype: signed fixed-width dtypes wrap
two's-complement style, `uint8` reduces modulo `2 ^ 8`, and `bool` maps any
non-zero value to `1` (torch's `.to(torch.bool)`). -/
def castTo : TorchDtype → Int → Int
  | .bool, x => if x = 0 then 0 else 1
  | .uint8, x => x % 2 ^ 8
  | .int8, x => wrapSigned 8 x
  | .int16, x => wrapSigned 16 x
  | .int32, x => wrapSigned 32 x
  | .int64, x => wrapSigned 64 x

/-- A torch tensor: a shape and its elements flattened in row-major order. -/
structure Tensor where
  shape : List Nat
  data : List Int
deriving DecidableEq, Repr

/-- The value domain of a dtype: `bool` holds `0`/`1`, the signed fixed-width
types hold their two's-complement range, `uint8` holds `[0, 2 ^ 8)`. -/
def representable : TorchDtype → Int → Prop
  | .bool, v => v = 0 ∨ v = 1
  | .uint8, v => 0 ≤ v ∧ v < 2 ^ 8
  | .int8, v => -(2 ^ 7) ≤ v ∧ v < 2 ^ 7
  | .int16, v => -(2 ^ 15) ≤ v ∧ v < 2 ^ 15
  | .int32, v => -(2 ^ 31) ≤ v ∧ v < 2 ^ 31
  | .int64, v => -(2 ^ 63) ≤ v ∧ v < 2 ^ 63

instance (t : TorchDtype) (v : Int) : Decidable (representable t v) :=
  match t with
  | .bool => inferInstanceAs (Decidable (v = 0 ∨ v = 1))
  | .uint8 => inferInstanceAs (Decidable (0 ≤ v ∧ v < 2 ^ 8))
  | .int8 => inferInstanceAs (Decidable (-(2 ^ 7) ≤ v ∧ v < 2 ^ 7))
  | .int16 => inferInstanceAs (Decidable (-(2 ^ 15) ≤ v ∧ v < 2 ^ 15))
  | .int32 => inferInstanceAs (Decidable (-(2 ^ 31) ≤ v ∧ v < 2 ^ 31))
  | .int64 => inferInstanceAs (Decidable (-(2 ^ 63) ≤ v ∧ v < 2 ^ 63))

/-- `decompose`: binary decomposition of a tensor of ring elements.  Mirrors
the source: resolve `tensor_type`, `nr_bits`, build `powers = arange(nr_bits)`
and `moduli = (2 ** powers).to(tensor_type)`, default `shape` to
`tensor.shape`, unsqueeze `powers` once per dimension of `shape` (giving it
shape `[1] * len(shape) + [nr_bits]`), unsqueeze the tensor at the end, and
compute `fmod(tensor / moduli, 2).to(tensor_type)` (truncating fixed-width
division, then `fmod`, both in `tensor_type`).  Broadcasting
`tensor.shape + [1]` against `[1] * len(shape) + [nr_bits]` appends a trailing
bit axis per element, plus `len(shape) - tensor.dim()` leading unit axes when
the `shape` argument has more dimensions than the tensor; the element values
never depend on `shape`. -/
def decompose (tensor : Tensor) (ring_size : Nat) (shape : Option (List Nat)) :
    Except String Tensor :=
  match get_type_from_ring ring_size with
  | .error e => .error e
  | .ok tensor_type =>
    let nr_bits := get_nr_bits ring_size
    let sh := shape.getD tensor.shape
    let moduli := (List.range nr_bits).map
      (fun p => castTo tensor_type ((2 : Int) ^ p))
    .ok { shape := List.replicate (sh.length - tensor.shape.length) 1
                     ++ tensor.shape ++ [nr_bits],
          data := tensor.data.flatMap (fun v =>
            moduli.map (fun m => castTo tensor_type (Int.tmod (Int.tdiv v m) 2))) }

/-- `sum(bit[i] * 2 ^ i)` over a least-significant-first list of bits. -/
def reconstruct : List Int → Int
  | [] => 0
  | b :: bs => b + 2 * reconstruct bs

/-- Nat-valued version of `reconstruct`, for the digit telescoping lemma. -/
def reconstructN : List Nat → Nat
  | [] => 0
  | b :: bs => b + 2 * reconstructN bs

/-- Modelled from the spec: the actual generator algorithm
(`torchcsprng.create_mt19937_generator` and `torch.Tensor.random_`) is
third-party code not present in this repository.  Per the spec the generator
is an opaque deterministic pseudo-random state seeded by an integer, advanced
by the number of values drawn; `mixWord` is a concrete stand-in for the raw
64-bit word produced at a given seed and draw position. -/
def mixWord (seed position : Nat) : Nat :=
  (seed * 6364136223846793005 + position * 1442695040888963407 + 1013904223)
    % 2 ^ 64

/-- Modelled from the spec: opaque deterministic pseudo-random state, a seed
plus the number of values drawn so far. -/
structure Generator where
  seed : Nat
  position : Nat
deriving DecidableEq, Repr

/-- `get_new_generator`: a generator initialized with the seed (draw position
0). -/
def get_new_generator (seed : Nat) : Generator := ⟨seed, 0⟩

/-- Modelled from the spec: a raw 64-bit word truncated to the dtype's domain,
uniform over the full range of bit patterns (signed interpretation for the
signed types). -/
def drawValue (tensor_type : TorchDtype) (wd : Nat) : Int :=
  match tensor_type with
  | .bool => Int.ofNat (wd % 2)
  | .uint8 => Int.ofNat (wd % 2 ^ 8)
  | .int8 => wrapSigned 8 (Int.ofNat wd)
  | .int16 => wrapSigned 16 (Int.ofNat wd)
  | .int32 => wrapSigned 32 (Int.ofNat wd)
  | .int64 => wrapSigned 64 (Int.ofNat wd)

/-- `generate_random_element`: fill a tensor of the requested shape and dtype
with values drawn from the generator, advancing the generator's state by the
number of values drawn.  The device string is forwarded opaquely and does not
affect the values. -/
def generate_random_element (tensor_type : TorchDtype) (generator : Generator)
    (shape : List Nat) (_device : String) : Tensor × Generator :=
  let n := shape.prod
  (⟨shape,
    (List.range n).map
      (fun i => drawValue tensor_type (mixWord generator.seed (generator.position + i)))⟩,
   ⟨generator.seed, generator.position + n⟩)

lemma getD_eq_getElem_of_lt {α : Type} (l : List α) (d : α) {i : Nat}
    (h : i < l.length) : l.getD i d = l[i] := by
  simp [List.getD_eq_getElem?_getD, List.getElem?_eq_getElem h]

lemma getD_zipWith {α β γ : Type} (f : α → β → γ) (as : List α) (bs : List β)
    (da : α) (db : β) (dc : γ) {j : Nat} (ha : j < as.length)
    (hb : j < bs.length) :
    (List.zipWith f as bs).getD j dc = f (as.getD j da) (bs.getD j db) := by
  simp [List.getD_eq_getElem?_getD, List.getElem?_zipWith,
        List.getElem?_eq_getElem ha, List.getElem?_eq_getElem hb]

lemma getD_zip {α β : Type} (as : List α) (bs : List β) (da : α) (db : β)
    {j : Nat} (ha : j < as.length) (hb : j < bs.length) :
    (as.zip bs).getD j (da, db) = (as.getD j da, bs.getD j db) :=
  getD_zipWith Prod.mk as bs da db (da, db) ha hb

lemma foldl_elemStep_snd_sub (w : Nat) (xs : List Int) :
    ∀ x c c' : Int,
      (xs.foldl (elemStep w) (x, c)).2 - c =
        (xs.foldl (elemStep w) (x, c')).2 - c' := by
  induction xs with
  | nil => intro x c c'; simp
  | cons s xs ih =>
    intro x c c'
    simp only [List.foldl_cons, elemStep]
    have hI := ih (wrapSigned w (x + s))
      (c + (if x < 0 ∧ s < 0 ∧ 0 < wrapSigned w (x + s) then (-1 : Int) else 0)
         + (if 0 < x ∧ 0 < s ∧ wrapSigned w (x + s) < 0 then (1 : Int) else 0))
      (c' + (if x < 0 ∧ s < 0 ∧ 0 < wrapSigned w (x + s) then (-1 : Int) else 0)
          + (if 0 < x ∧ 0 < s ∧ wrapSigned w (x + s) < 0 then (1 : Int) else 0))
    omega

lemma foldl_elemStep_snd (w : Nat) (xs : List Int) (x c : Int) :
    (xs.foldl (elemStep w) (x, c)).2 = c + (xs.foldl (elemStep w) (x, 0)).2 := by
  have h := foldl_elemStep_snd_sub w xs x c 0
  omega

lemma wrapCountElem_cons (w : Nat) (x s : Int) (xs : List Int) :
    wrapCountElem w x (s :: xs) =
      ((if x < 0 ∧ s < 0 ∧ 0 < wrapSigned w (x + s) then (-1 : Int) else 0)
        + (if 0 < x ∧ 0 < s ∧ wrapSigned w (x + s) < 0 then (1 : Int) else 0))
      + wrapCountElem w (wrapSigned w (x + s)) xs := by
  simp only [wrapCountElem, List.foldl_cons, elemStep]
  rw [foldl_elemStep_snd]
  ring

/-- Variant of `wrapCountElem_cons` with the wrapped sum written `s + x`, the
operand order used by the `count_wraps` loop (`next = cur + prev`). -/
lemma wrapCountElem_cons' (w : Nat) (x s : Int) (xs : List Int) :
    wrapCountElem w x (s :: xs) =
      ((if x < 0 ∧ s < 0 ∧ 0 < wrapSigned w (s + x) then (-1 : Int) else 0)
        + (if 0 < x ∧ 0 < s ∧ wrapSigned w (s + x) < 0 then (1 : Int) else 0))
      + wrapCountElem w (wrapSigned w (s + x)) xs := by
  rw [wrapCountElem_cons, Int.add_comm x s]

lemma count_fold_pointwise (w L : Nat) (shares : List (List Int)) :
    ∀ st : List Int × List Int,
      (∀ s ∈ shares, s.length = L) → st.1.length = L → st.2.length = L →
      (shares.foldl (listStep w) st).1.length = L ∧
      ∀ j, j < L →
        (shares.foldl (listStep w) st).1.getD j 0 =
          st.1.getD j 0 +
            wrapCountElem w (st.2.getD j 0) (shares.map (fun s => s.getD j 0)) := by
  induction shares with
  | nil =>
    intro st _ hr _
    exact ⟨hr, by intro j hj; simp [wrapCountElem]⟩
  | cons cur shares ih =>
    intro st hs hr hp
    have hcur : cur.length = L := hs cur (List.mem_cons_self ..)
    have hs' : ∀ s ∈ shares, s.length = L :=
      fun s hm => hs s (List.mem_cons_of_mem _ hm)
    have hres1 : (listStep w st cur).1.length = L := by
      simp [listStep, List.length_zipWith, List.zip, hcur, hp, hr]
    have hres2 : (listStep w st cur).2.length = L := by
      simp [listStep, List.length_zipWith, hcur, hp]
    simp only [List.foldl_cons]
    obtain ⟨H1, H2⟩ := ih (listStep w st cur) hs' hres1 hres2
    refine ⟨H1, ?_⟩
    intro j hj
    rw [H2 j hj]
    have hjr : j < st.1.length := hr ▸ hj
    have hjc : j < cur.length := hcur ▸ hj
    have hjp : j < st.2.length := hp ▸ hj
    simp only [listStep, List.map_cons, List.getD_eq_getElem?_getD,
      List.getElem?_zipWith, List.zip, List.getElem?_eq_getElem hjr,
      List.getElem?_eq_getElem hjc, List.getElem?_eq_getElem hjp,
      Option.getD_some]
    rw [wrapCountElem_cons']
    split_ifs <;> ring

lemma neg_tmod' (a b : Int) : Int.tmod (-a) b = -Int.tmod a b := by
  rw [Int.tmod_def, Int.tmod_def, Int.neg_tdiv]
  ring

lemma reconstruct_map_cast (l : List Nat) :
    reconstruct (l.map (fun b : Nat => (b : Int))) = (reconstructN l : Int) := by
  induction l with
  | nil => rfl
  | cons b bs ih =>
    simp only [List.map_cons, reconstruct, reconstructN, ih]
    push_cast
    ring

lemma reconstruct_map_neg (l : List Int) :
    reconstruct (l.map (fun b : Int => -b)) = -reconstruct l := by
  induction l with
  | nil => rfl
  | cons b bs ih =>
    simp only [List.map_cons, reconstruct, ih]
    ring

lemma reconstruct_append_singleton (l : List Int) (b : Int) :
    reconstruct (l ++ [b]) = reconstruct l + b * 2 ^ l.length := by
  induction l with
  | nil =>
    show b + 2 * 0 = 0 + b * 2 ^ 0
    ring
  | cons a l ih =>
    rw [List.cons_append]
    rw [show reconstruct (a :: (l ++ [b])) = a + 2 * reconstruct (l ++ [b]) from rfl]
    rw [ih]
    rw [show reconstruct (a :: l) = a + 2 * reconstruct l from rfl]
    rw [List.length_cons, pow_succ]
    ring

lemma tele_nat (n : Nat) : ∀ m : Nat,
    reconstructN ((List.range n).map (fun p => m / 2 ^ p % 2)) = m % 2 ^ n := by
  induction n with
  | zero => intro m; simp [reconstructN, Nat.mod_one]
  | succ n ih =>
    intro m
    rw [List.range_succ_eq_map, List.map_cons, List.map_map]
    have hcomp : ((fun p => m / 2 ^ p % 2) ∘ Nat.succ) =
        (fun p => (m / 2) / 2 ^ p % 2) := by
      funext p
      simp only [Function.comp]
      rw [Nat.div_div_eq_div_mul, pow_succ]
      ring_nf
    rw [hcomp]
    rw [show reconstructN ((m / 2 ^ 0 % 2) ::
          ((List.range n).map (fun p => (m / 2) / 2 ^ p % 2))) =
        m / 2 ^ 0 % 2 + 2 * reconstructN
          ((List.range n).map (fun p => (m / 2) / 2 ^ p % 2)) from rfl]
    rw [ih (m / 2), pow_zero, Nat.div_one]
    rw [show (2 : Nat) ^ (n + 1) = 2 * 2 ^ n from by rw [pow_succ]; ring]
    rw [Nat.mod_mul]

lemma tele_int_ofNat (n m : Nat) :
    reconstruct ((List.range n).map
      (fun p => Int.tmod (Int.tdiv (m : Int) ((2 : Int) ^ p)) 2)) =
      ((m % 2 ^ n : Nat) : Int) := by
  have hbit : ∀ p : Nat,
      Int.tmod (Int.tdiv (m : Int) ((2 : Int) ^ p)) 2 =
        ((m / 2 ^ p % 2 : Nat) : Int) := by
    intro p
    rw [show ((2 : Int) ^ p) = ((2 ^ p : Nat) : Int) from by push_cast; ring,
        ← Int.ofNat_tdiv,
        show (2 : Int) = ((2 : Nat) : Int) from rfl, ← Int.ofNat_tmod]
  have h1 : ((List.range n).map (fun p => m / 2 ^ p % 2)).map
        (fun b : Nat => (b : Int)) =
      (List.range n).map
        (fun p => Int.tmod (Int.tdiv (m : Int) ((2 : Int) ^ p)) 2) := by
    rw [List.map_map]
    apply List.map_congr_left
    intro p _
    simp only [Function.comp]
    exact (hbit p).symm
  rw [← h1, reconstruct_map_cast, tele_nat]

lemma tele_int (n : Nat) (v : Int) :
    reconstruct ((List.range n).map
      (fun p => Int.tmod (Int.tdiv v ((2 : Int) ^ p)) 2)) =
      Int.tmod v ((2 : Int) ^ n) := by
  cases v with
  | ofNat m =>
    rw [show Int.ofNat m = (m : Int) from rfl, tele_int_ofNat,
        show ((2 : Int) ^ n) = ((2 ^ n : Nat) : Int) from by push_cast; ring,
        ← Int.ofNat_tmod]
  | negSucc m =>
    rw [show Int.negSucc m = -((m + 1 : Nat) : Int) from by
      rw [Int.negSucc_eq]; push_cast; ring]
    have h1 : (List.range n).map
          (fun p => Int.tmod (Int.tdiv (-((m + 1 : Nat) : Int)) ((2 : Int) ^ p)) 2) =
        ((List.range n).map
          (fun p => Int.tmod (Int.tdiv ((m + 1 : Nat) : Int) ((2 : Int) ^ p)) 2)).map
          (fun b : Int => -b) := by
      rw [List.map_map]
      apply List.map_congr_left
      intro p _
      simp only [Function.comp]
      rw [Int.neg_tdiv, neg_tmod']
    rw [h1, reconstruct_map_neg, tele_int_ofNat, neg_tmod',
        show ((2 : Int) ^ n) = ((2 ^ n : Nat) : Int) from by push_cast; ring,
        ← Int.ofNat_tmod]

lemma wrapSigned_eq_self (w : Nat) (x : Int) (hw : 1 ≤ w)
    (h1 : -((2 : Int) ^ (w - 1)) ≤ x) (h2 : x < (2 : Int) ^ (w - 1)) :
    wrapSigned w x = x := by
  have hpow : (2 : Int) ^ w = 2 ^ (w - 1) * 2 := by
    rw [← pow_succ]
    congr 1
    omega
  unfold wrapSigned
  rw [Int.emod_eq_of_lt (by omega) (by omega)]
  omega

lemma wrapSigned_top (w : Nat) (hw : 1 ≤ w) :
    wrapSigned w ((2 : Int) ^ (w - 1)) = -((2 : Int) ^ (w - 1)) := by
  have hpow : (2 : Int) ^ w = 2 ^ (w - 1) * 2 := by
    rw [← pow_succ]
    congr 1
    omega
  unfold wrapSigned
  rw [show (2 : Int) ^ (w - 1) + 2 ^ (w - 1) = 2 ^ w from by omega, Int.emod_self]
  omega

lemma tmod_two_cases (a : Int) :
    Int.tmod a 2 = -1 ∨ Int.tmod a 2 = 0 ∨ Int.tmod a 2 = 1 := by
  cases a with
  | ofNat m =>
    rw [show Int.ofNat m = ((m : Nat) : Int) from rfl,
        show (2 : Int) = ((2 : Nat) : Int) from rfl, ← Int.ofNat_tmod]
    have := Nat.mod_lt m (show 0 < 2 from by omega)
    omega
  | negSucc m =>
    rw [Int.negSucc_eq,
        show -(((m : Nat) : Int) + 1) = -(((m + 1 : Nat) : Nat) : Int) from by
          push_cast; ring,
        neg_tmod',
        show (2 : Int) = ((2 : Nat) : Int) from rfl, ← Int.ofNat_tmod]
    have := Nat.mod_lt (m + 1) (show 0 < 2 from by omega)
    omega

lemma wrapSigned_small (w : Nat) (hw : 2 ≤ w) (t : Int)
    (ht : t = -1 ∨ t = 0 ∨ t = 1) : wrapSigned w t = t := by
  have h2 : (2 : Int) ≤ 2 ^ (w - 1) := by
    calc (2 : Int) = 2 ^ 1 := (pow_one 2).symm
    _ ≤ 2 ^ (w - 1) := pow_le_pow_right₀ (by omega) (by omega)
  exact wrapSigned_eq_self w t (by omega) (by omega) (by omega)

/-- The decomposition round trip for a `w`-bit signed dtype: reconstructing
the source's bits (with the wrapped moduli list, whose top entry is
`-2 ^ (w - 1)`) agrees with the input modulo `2 ^ w`. -/
lemma signed_reconstruct (w : Nat) (hw : 2 ≤ w) (v : Int)
    (h1 : -((2 : Int) ^ (w - 1)) ≤ v) (h2 : v < (2 : Int) ^ (w - 1)) :
    (reconstruct ((List.range w).map
        (fun p => wrapSigned w
          (Int.tmod (Int.tdiv v (wrapSigned w ((2 : Int) ^ p))) 2))))
      % ((2 : Int) ^ w) = v % ((2 : Int) ^ w) := by
  obtain ⟨n, rfl⟩ : ∃ n, w = n + 1 := ⟨w - 1, by omega⟩
  have hn : n + 1 - 1 = n := by omega
  rw [hn] at h1 h2
  rw [List.range_succ, List.map_append, List.map_singleton,
      reconstruct_append_singleton]
  have hlow : ∀ p ∈ List.range n,
      wrapSigned (n + 1)
        (Int.tmod (Int.tdiv v (wrapSigned (n + 1) ((2 : Int) ^ p))) 2) =
      Int.tmod (Int.tdiv v ((2 : Int) ^ p)) 2 := by
    intro p hp
    have hpn : p < n := List.mem_range.mp hp
    have hmod : wrapSigned (n + 1) ((2 : Int) ^ p) = (2 : Int) ^ p := by
      apply wrapSigned_eq_self (n + 1) _ (by omega)
      · rw [hn]
        have : (0 : Int) < 2 ^ p := pow_pos (by omega) _
        have : (0 : Int) < 2 ^ n := pow_pos (by omega) _
        omega
      · rw [hn]
        exact pow_lt_pow_right₀ (by omega) hpn
    rw [hmod]
    exact wrapSigned_small (n + 1) (by omega) _ (tmod_two_cases _)
  rw [List.map_congr_left hlow, tele_int]
  have htop : wrapSigned (n + 1) ((2 : Int) ^ n) = -((2 : Int) ^ n) := by
    have := wrapSigned_top (n + 1) (by omega)
    rwa [hn] at this
  rw [htop, Int.tdiv_neg, neg_tmod',
      wrapSigned_small (n + 1) (by omega) _ (by
        rcases tmod_two_cases (Int.tdiv v ((2 : Int) ^ n)) with h | h | h <;>
          rw [h] <;> omega)]
  rw [List.length_map, List.length_range]
  have hpow : (2 : Int) ^ (n + 1) = 2 ^ n * 2 := by rw [pow_succ]
  have hKpos : (0 : Int) < 2 ^ n := pow_pos (by omega) _
  by_cases hv0 : 0 ≤ v
  · rw [Int.tdiv_eq_zero_of_lt hv0 h2, Int.zero_tmod, Int.tmod_eq_of_lt hv0 h2]
    rw [show v + -(0 : Int) * 2 ^ n = v from by ring]
  · push_neg at hv0
    by_cases hmin : v = -(2 ^ n)
    · subst hmin
      have e1 : Int.tdiv (-((2 : Int) ^ n)) ((2 : Int) ^ n) = -1 := by
        rw [Int.neg_tdiv, Int.tdiv_self (by omega)]
      have e2 : Int.tmod (-((2 : Int) ^ n)) ((2 : Int) ^ n) = 0 := by
        rw [neg_tmod', Int.tmod_self, neg_zero]
      have e3 : Int.tmod (-1 : Int) 2 = -1 := by decide
      rw [e1, e2, e3]
      rw [show (0 : Int) + -(-1 : Int) * 2 ^ n = 2 ^ n from by ring]
      rw [show -((2 : Int) ^ n) = 2 ^ n + 2 ^ (n + 1) * (-1) from by
        rw [hpow]; ring]
      rw [Int.add_mul_emod_self_left]
    · have hnvpos : (0 : Int) ≤ -v := by omega
      have hnvlt : -v < 2 ^ n := by omega
      have e1 : Int.tdiv v ((2 : Int) ^ n) = 0 := by
        rw [show v = -(-v) from (neg_neg v).symm, Int.neg_tdiv,
            Int.tdiv_eq_zero_of_lt hnvpos hnvlt, neg_zero]
      have e2 : Int.tmod v ((2 : Int) ^ n) = v := by
        rw [show v = -(-v) from (neg_neg v).symm, neg_tmod',
            Int.tmod_eq_of_lt hnvpos hnvlt]
      rw [e1, e2, Int.zero_tmod]
      rw [show v + -(0 : Int) * 2 ^ n = v from by ring]

/-- C5: the ring-size-to-type and type-to-ring-size lookups are mutually
inverse on their supported domains: composing `get_type_from_ring` with
`get_ring_size_from_type` is the identity on every supported ring size, and
the converse composition is the identity on every supported dtype. -/
theorem c5_ring_type_bijection :
    ((get_type_from_ring (2 ^ 1)).bind get_ring_size_from_type = .ok (2 ^ 1)) ∧
    ((get_type_from_ring (2 ^ 8)).bind get_ring_size_from_type = .ok (2 ^ 8)) ∧
    ((get_type_from_ring (2 ^ 16)).bind get_ring_size_from_type = .ok (2 ^ 16)) ∧
    ((get_type_from_ring (2 ^ 32)).bind get_ring_size_from_type = .ok (2 ^ 32)) ∧
    ((get_type_from_ring (2 ^ 64)).bind get_ring_size_from_type = .ok (2 ^ 64)) ∧
    ((get_ring_size_from_type .bool).bind get_type_from_ring = .ok .bool) ∧
    ((get_ring_size_from_type .int8).bind get_type_from_ring = .ok .int8) ∧
    ((get_ring_size_from_type .int16).bind get_type_from_ring = .ok .int16) ∧
    ((get_ring_size_from_type .int32).bind get_type_from_ring = .ok .int32) ∧
    ((get_ring_size_from_type .int64).bind get_type_from_ring = .ok .int64) :=
  ⟨rfl, rfl, rfl, rfl, rfl, rfl, rfl, rfl, rfl, rfl⟩

/-- C6: `get_nr_bits (2 ^ k) = k` for every supported exponent
`k ∈ {1, 8, 16, 32, 64}`, including the degenerate boolean ring `k = 1`. -/
theorem c6_get_nr_bits_pow :
    get_nr_bits (2 ^ 1) = 1 ∧ get_nr_bits (2 ^ 8) = 8 ∧
    get_nr_bits (2 ^ 16) = 16 ∧ get_nr_bits (2 ^ 32) = 32 ∧
    get_nr_bits (2 ^ 64) = 64 :=
  ⟨rfl, rfl, rfl, rfl, rfl⟩

/-- C7: `get_type_from_ring` succeeds exactly on the supported ring sizes and
returns a typed error exactly outside them; `get_ring_size_from_type` succeeds
exactly on the supported dtypes and returns a typed error exactly outside
them.  Neither lookup silently defaults. -/
theorem c7_lookup_errors :
    (∀ r : Nat, (∃ t, get_type_from_ring r = .ok t) ↔ r ∈ SUPPORTED_RING_SIZES) ∧
    (∀ r : Nat, (∃ e, get_type_from_ring r = .error e) ↔ r ∉ SUPPORTED_RING_SIZES) ∧
    (∀ t : TorchDtype,
      (∃ n, get_ring_size_from_type t = .ok n) ↔ t ∈ SUPPORTED_DTYPES) ∧
    (∀ t : TorchDtype,
      (∃ e, get_ring_size_from_type t = .error e) ↔ t ∉ SUPPORTED_DTYPES) := by
  refine ⟨?_, ?_, ?_, ?_⟩
  · intro r
    simp only [get_type_from_ring, RING_SIZE_TO_TYPE, SUPPORTED_RING_SIZES]
    split_ifs with h1 h2 h3 h4 h5 <;> simp_all
  · intro r
    simp only [get_type_from_ring, RING_SIZE_TO_TYPE, SUPPORTED_RING_SIZES]
    split_ifs with h1 h2 h3 h4 h5 <;> simp_all
  · intro t
    cases t <;> simp [get_ring_size_from_type, TYPE_TO_RING_SIZE, SUPPORTED_DTYPES]
  · intro t
    cases t <;> simp [get_ring_size_from_type, TYPE_TO_RING_SIZE, SUPPORTED_DTYPES]

/-- C1: on every non-empty list of equal-length lists of `w`-bit share values,
`count_wraps` returns exactly the element-wise strict left-to-right fold
specification (`count_wraps_spec`), and on a singleton list it returns all
zeros regardless of the share's values. -/
theorem c1_count_wraps_fold (w : Nat) (first : List Int)
    (rest : List (List Int)) (h : ∀ s ∈ rest, s.length = first.length) :
    count_wraps w (first :: rest) = some (count_wraps_spec w first rest) ∧
    ∀ x : List Int, count_wraps w [x] = some (List.replicate x.length 0) := by
  refine ⟨?_, fun x => rfl⟩
  obtain ⟨H1, H2⟩ := count_fold_pointwise w first.length rest
    (List.replicate first.length 0, first) h (by simp) rfl
  simp only [count_wraps, count_wraps_spec]
  congr 1
  apply List.ext_getElem
  · simp [H1]
  · intro i h1 h2
    have hi : i < first.length := H1 ▸ h1
    have e1 := H2 i hi
    rw [getD_eq_getElem_of_lt _ 0 h1] at e1
    rw [e1]
    have hrep : i < (List.replicate first.length (0 : Int)).length := by
      simpa using hi
    rw [getD_eq_getElem_of_lt _ 0 hrep]
    simp [hi]

/-- Witness for C1 at a concrete input (8-bit shares, one causing an
overflow wraparound). -/
theorem c1_count_wraps_fold_witness :
    count_wraps 8 [[100, -100], [100, 50], [100, -50]] =
      some (count_wraps_spec 8 [100, -100] [[100, 50], [100, -50]]) ∧
    ∀ x : List Int, count_wraps 8 [x] = some (List.replicate x.length 0) :=
  c1_count_wraps_fold 8 [100, -100] [[100, 50], [100, -50]] (by decide)

/-- C2 counterexample: for the two-share list `[[-128], [-128]]` in the 8-bit
ring, the wrapped sum is `0`, which fails the strict `next > 0` underflow
test, so `count_wraps` reports `0` at that element, not `-1`. -/
theorem c2_counterexample_min_shares :
    count_wraps 8 [[-128], [-128]] = some [0] ∧
    count_wraps 8 [[-128], [-128]] ≠ some [-1] := by
  constructor
  · rfl
  · intro h
    simp only [count_wraps] at h
    exact absurd (Option.some.inj h) (by decide)

/-- C2 amended: with both shares equal to the most-negative 8-bit value the
wrapped sum is `0`, which is not `> 0`, so `count_wraps` reports `0`; when the
wrapped sum of two negative shares is strictly positive (e.g. `a = -128`,
`b = -127`, wrapped sum `1`), `count_wraps` reports exactly `-1` at that
element. -/
theorem c2_amended_boundary_underflow :
    count_wraps 8 [[-128], [-127]] = some [-1] ∧
    count_wraps 8 [[-128], [-128]] = some [0] :=
  ⟨rfl, rfl⟩

/-- C10: `count_wraps` is defined only for non-empty share lists: on the empty
list the initial `shares[0]` access fails (no result), and on every non-empty
list it returns normally. -/
theorem c10_count_wraps_empty_fails (w : Nat) (first : List Int)
    (rest : List (List Int)) :
    count_wraps w [] = none ∧ (count_wraps w (first :: rest)).isSome = true :=
  ⟨rfl, rfl⟩

/-- C3: for every supported ring size and every value representable in its
dtype, decomposing a scalar tensor and reconstructing
`sum(bit[i] * 2 ^ i)` agrees with the input modulo the ring size. -/
theorem c3_decompose_roundtrip (r : Nat) (t : TorchDtype) (v : Int)
    (hr : RING_SIZE_TO_TYPE r = some t) (hv : representable t v) :
    ∃ out, decompose ⟨[], [v]⟩ r none = .ok out ∧
      reconstruct out.data % (r : Int) = v % (r : Int) := by
  unfold RING_SIZE_TO_TYPE at hr
  split_ifs at hr with h1 h2 h3 h4 h5
  · subst h1
    injection hr with ht
    subst ht
    rcases hv with rfl | rfl
    · exact ⟨_, rfl, by decide⟩
    · exact ⟨_, rfl, by decide⟩
  · subst h2
    injection hr with ht
    subst ht
    refine ⟨⟨[8], (List.range 8).map
        (fun p => wrapSigned 8
          (Int.tmod (Int.tdiv v (wrapSigned 8 ((2 : Int) ^ p))) 2))⟩, rfl, ?_⟩
    have h := signed_reconstruct 8 (by omega) v hv.1 hv.2
    exact_mod_cast h
  · subst h3
    injection hr with ht
    subst ht
    refine ⟨⟨[16], (List.range 16).map
        (fun p => wrapSigned 16
          (Int.tmod (Int.tdiv v (wrapSigned 16 ((2 : Int) ^ p))) 2))⟩, rfl, ?_⟩
    have h := signed_reconstruct 16 (by omega) v hv.1 hv.2
    exact_mod_cast h
  · subst h4
    injection hr with ht
    subst ht
    refine ⟨⟨[32], (List.range 32).map
        (fun p => wrapSigned 32
          (Int.tmod (Int.tdiv v (wrapSigned 32 ((2 : Int) ^ p))) 2))⟩, rfl, ?_⟩
    have h := signed_reconstruct 32 (by omega) v hv.1 hv.2
    exact_mod_cast h
  · subst h5
    injection hr with ht
    subst ht
    refine ⟨⟨[64], (List.range 64).map
        (fun p => wrapSigned 64
          (Int.tmod (Int.tdiv v (wrapSigned 64 ((2 : Int) ^ p))) 2))⟩, rfl, ?_⟩
    have h := signed_reconstruct 64 (by omega) v hv.1 hv.2
    exact_mod_cast h

/-- Witness for C3 at ring size `2 ^ 8` and the negative value `-3`. -/
theorem c3_decompose_roundtrip_witness :
    RING_SIZE_TO_TYPE (2 ^ 8) = some .int8 ∧ representable .int8 (-3) ∧
    ∃ out, decompose ⟨[], [-3]⟩ (2 ^ 8) none = .ok out ∧
      reconstruct out.data % ((2 ^ 8 : Nat) : Int) = (-3) % ((2 ^ 8 : Nat) : Int) :=
  ⟨by decide, by decide,
    c3_decompose_roundtrip (2 ^ 8) .int8 (-3) (by decide) (by decide)⟩

/-- C4: for ring size `2 ^ 8`, decomposing the scalar value 5 yields the bit
vector `[1, 0, 1, 0, 0, 0, 0, 0]` (least-significant bit first) along a new
trailing axis of length `nr_bits = 8`. -/
theorem c4_decompose_five_bits :
    decompose ⟨[], [5]⟩ (2 ^ 8) none = .ok ⟨[8], [1, 0, 1, 0, 0, 0, 0, 0]⟩ :=
  rfl

/-- C8: generator construction and drawing are deterministic in the seed: two
generators built from the same seed, each drawing a tensor of the same shape
and dtype, produce bit-identical outputs. -/
theorem c8_generator_determinism (seed : Nat) (t : TorchDtype)
    (shape : List Nat) (device : String) (g1 g2 : Generator)
    (h1 : g1 = get_new_generator seed) (h2 : g2 = get_new_generator seed) :
    (generate_random_element t g1 shape device).1 =
      (generate_random_element t g2 shape device).1 := by
  subst h1
  subst h2
  rfl

/-- Witness for C8 at seed 42, dtype `int8`, shape `[3]`. -/
theorem c8_generator_determinism_witness :
    (generate_random_element .int8 (get_new_generator 42) [3] "cpu").1 =
      (generate_random_element .int8 (get_new_generator 42) [3] "cpu").1 :=
  c8_generator_determinism 42 .int8 [3] "cpu" (get_new_generator 42)
    (get_new_generator 42) rfl rfl

/-- C9: `decompose` reads its optional shape argument only through the number
of dimensions: two shape arguments of equal length give identical results, and
a shape argument whose length equals the tensor's own rank gives the same
result as omitting the argument. -/
theorem c9_decompose_shape_rank_only (tensor : Tensor) (r : Nat)
    (s1 s2 : List Nat) (hlen : s1.length = s2.length) :
    decompose tensor r (some s1) = decompose tensor r (some s2) ∧
    (s1.length = tensor.shape.length →
      decompose tensor r (some s1) = decompose tensor r none) := by
  unfold decompose
  cases hE : get_type_from_ring r with
  | error e => exact ⟨rfl, fun _ => rfl⟩
  | ok tt =>
    constructor
    · simp only [Option.getD_some]
      rw [hlen]
    · intro h
      simp only [Option.getD_some, Option.getD_none]
      rw [h]

/-- Witness for C9: a rank-1 tensor with two different length-1 shape
arguments. -/
theorem c9_decompose_shape_rank_only_witness :
    (decompose ⟨[2], [1, 2]⟩ (2 ^ 8) (some [5]) =
      decompose ⟨[2], [1, 2]⟩ (2 ^ 8) (some [7])) ∧
    ([5].length = (Tensor.mk [2] [1, 2]).shape.length →
      decompose ⟨[2], [1, 2]⟩ (2 ^ 8) (some [5]) =
        decompose ⟨[2], [1, 2]⟩ (2 ^ 8) none) :=
  c9_decompose_shape_rank_only ⟨[2], [1, 2]⟩ (2 ^ 8) [5] [7] rfl

end MpcUtils
